import Mathlib

/-!
A shallow embedding of the student-result management system:
the pure grading/validation logic of `src/frontend/src/App.tsx`
(`computeGrade`, `validateForm`, `handleCalculate`) and the persistent
result store of `src/backend/main.mo` (`addResult`, `getResults`,
`deleteResult`, `clearAll`), together with theorems about them.

JavaScript numbers are modelled as exact rationals (`ℚ`), with `JSNum`
adding the NaN case produced by `Number(...)` on unparsable text; the
`Number` string-to-number coercion itself is kept abstract (a parameter
`num : String → JSNum`).  Motoko `Nat`/`Int`/`Float` become `ℕ`/`ℤ`/`ℚ`.
The backend's ordered `Map` is modelled as an association list kept
sorted by key, which is how the ordered map's iteration behaves.
-/

namespace SRMS

/-! ## Frontend: the grade calculator (`App.tsx`) -/

/-- Result of the JavaScript `Number(raw)` coercion: NaN or an exact value. -/
inductive JSNum where
  | nan : JSNum
  | num (q : ℚ) : JSNum
deriving DecidableEq

/-- `Number.isInteger` (false on NaN). -/
def JSNum.isInteger : JSNum → Bool
  | .nan => false
  | .num q => q.den == 1

/-- The numeric value of a parsed mark; only applied to values that passed
validation, where `Number(raw)` is a genuine number (never `.nan`). -/
def JSNum.toQ : JSNum → ℚ
  | .nan => 0
  | .num q => q

/-- The five subject marks, in the object-literal order of `App.tsx`. -/
structure Marks where
  maths : ℚ
  science : ℚ
  english : ℚ
  tamil : ℚ
  computerScience : ℚ
deriving DecidableEq

/-- `Object.values(marks)` for the five-subject marks object. -/
def Marks.values (m : Marks) : List ℚ :=
  [m.maths, m.science, m.english, m.tamil, m.computerScience]

/-- `computeGrade` from `App.tsx`: Fail on any mark < 35 or average < 40,
else A/B/C by average thresholds 80/60. -/
def computeGrade (average : ℚ) (marks : Marks) : String :=
  let hasFailingSubject : Bool := marks.values.any fun m => decide (m < 35)
  if hasFailingSubject || decide (average < 40) then "Fail"
  else if average ≥ 80 then "A"
  else if average ≥ 60 then "B"
  else "C"

/-- The JavaScript `String.prototype.trim()`: strip whitespace from both
ends (stated over the string's character list so that it evaluates by
kernel reduction). -/
def jsTrim (s : String) : String :=
  ⟨((s.data.dropWhile Char.isWhitespace).reverse.dropWhile
      Char.isWhitespace).reverse⟩

/-- The raw text of the form, one string per field (`FormValues` in `App.tsx`). -/
structure FormValues where
  studentName : String
  rollNumber : String
  maths : String
  science : String
  english : String
  tamil : String
  computerScience : String

/-- Per-field validation messages (`FormErrors` in `App.tsx`); `none` means
the field passed. -/
structure FormErrors where
  studentName : Option String
  rollNumber : Option String
  maths : Option String
  science : Option String
  english : Option String
  tamil : Option String
  computerScience : Option String
deriving DecidableEq

/-- `Object.keys(newErrors).length > 0`: some field carries a message. -/
def FormErrors.hasErrors (e : FormErrors) : Bool :=
  e.studentName.isSome || e.rollNumber.isSome || e.maths.isSome ||
    e.science.isSome || e.english.isSome || e.tamil.isSome ||
    e.computerScience.isSome

/-- The mark-field branch of `validateForm`: required, whole number, 0–100. -/
def markError (num : String → JSNum) (label : String) (raw : String) :
    Option String :=
  if raw = "" then some (label ++ " marks required")
  else
    match num raw with
    | .nan => some "Enter a whole number"
    | .num q =>
      if ¬ q.den = 1 then some "Enter a whole number"
      else if q < 0 ∨ q > 100 then some "Marks must be 0-100"
      else none

/-- `validateForm` from `App.tsx`. -/
def validateForm (num : String → JSNum) (v : FormValues) : FormErrors :=
  { studentName :=
      if jsTrim v.studentName = "" then some "Student name is required" else none
    rollNumber :=
      if jsTrim v.rollNumber = "" then some "Roll number is required" else none
    maths := markError num "Mathematics" v.maths
    science := markError num "Science" v.science
    english := markError num "English" v.english
    tamil := markError num "Tamil" v.tamil
    computerScience := markError num "Computer Science" v.computerScience }

/-- The derived result held in component state (`CalculatedResult`). -/
structure CalculatedResult where
  total : ℚ
  average : ℚ
  grade : String
  marks : Marks
deriving DecidableEq

/-- `handleCalculate` from `App.tsx`: validate, and on success derive
`total` (reduce of the five marks), `average = total / 5` and the grade;
`none` models the early return when some field has an error. -/
def handleCalculate (num : String → JSNum) (v : FormValues) :
    Option CalculatedResult :=
  let newErrors := validateForm num v
  if newErrors.hasErrors then none
  else
    let marks : Marks :=
      { maths := (num v.maths).toQ
        science := (num v.science).toQ
        english := (num v.english).toQ
        tamil := (num v.tamil).toQ
        computerScience := (num v.computerScience).toQ }
    let total := marks.values.foldl (· + ·) 0
    let average := total / 5
    some { total := total, average := average
           grade := computeGrade average marks, marks := marks }

/-! ## Backend: the result store (`main.mo`) -/

/-- The `StudentResult` record type of the Motoko actor. -/
structure StudentResult where
  id : ℕ
  rollNumber : String
  studentName : String
  maths : ℕ
  science : ℕ
  english : ℕ
  tamil : ℕ
  computerScience : ℕ
  total : ℕ
  average : ℚ
  grade : String
  timestamp : ℤ
deriving DecidableEq

/-- `Map.add`: insert or replace, keeping the association list sorted by key
(the ordered-map behaviour of `mo:core/Map`). -/
def mapAdd (k : ℕ) (v : StudentResult) :
    List (ℕ × StudentResult) → List (ℕ × StudentResult)
  | [] => [(k, v)]
  | (k', v') :: rest =>
    if k < k' then (k, v) :: (k', v') :: rest
    else if k = k' then (k, v) :: rest
    else (k', v') :: mapAdd k v rest

/-- `Map.remove`: drop the entry with the given key, if present. -/
def mapRemove (k : ℕ) :
    List (ℕ × StudentResult) → List (ℕ × StudentResult)
  | [] => []
  | (k', v') :: rest => if k = k' then rest else (k', v') :: mapRemove k rest

/-- `Map.containsKey`. -/
def mapContains (k : ℕ) (m : List (ℕ × StudentResult)) : Bool :=
  m.any fun p => p.1 == k

/-- The actor's stable state: the `results` map and the `nextId` counter. -/
structure Store where
  results : List (ℕ × StudentResult)
  nextId : ℕ
deriving DecidableEq

/-- The state at actor installation: empty map, counter 0. -/
def initialStore : Store := { results := [], nextId := 0 }

/-- The caller-supplied arguments of `addResult`, in declaration order. -/
structure AddRequest where
  rollNumber : String
  studentName : String
  maths : ℕ
  science : ℕ
  english : ℕ
  tamil : ℕ
  computerScience : ℕ
  total : ℕ
  average : ℚ
  grade : String
  timestamp : ℤ
deriving DecidableEq

/-- `addResult`: build the record with `id = nextId`, store it under that
key, advance the counter, return the id.  Total: it never fails. -/
def addResult (s : Store) (a : AddRequest) : Store × ℕ :=
  let newResult : StudentResult :=
    { id := s.nextId, rollNumber := a.rollNumber, studentName := a.studentName
      maths := a.maths, science := a.science, english := a.english
      tamil := a.tamil, computerScience := a.computerScience
      total := a.total, average := a.average, grade := a.grade
      timestamp := a.timestamp }
  ({ results := mapAdd s.nextId newResult s.results, nextId := s.nextId + 1 },
    newResult.id)

/-- One step of the insertion sort behind `toArray().sort()`, comparing by
`StudentResult.compare`, i.e. by `id`. -/
def insertById (r : StudentResult) : List StudentResult → List StudentResult
  | [] => [r]
  | x :: xs => if r.id ≤ x.id then r :: x :: xs else x :: insertById r xs

/-- Sort records by ascending `id` (`StudentResult.compare` of `main.mo`). -/
def sortById : List StudentResult → List StudentResult
  | [] => []
  | x :: xs => insertById x (sortById xs)

/-- `getResults`: the map's values, sorted by `StudentResult.compare`. -/
def getResults (s : Store) : List StudentResult :=
  sortById (s.results.map Prod.snd)

/-- `deleteResult`: trap (modelled as `Except.error`) when the id is absent,
otherwise remove its entry. -/
def deleteResult (s : Store) (i : ℕ) : Except String Store :=
  if ¬ mapContains i s.results then
    Except.error "Result with id does not exist"
  else
    Except.ok { s with results := mapRemove i s.results }

/-- `clearAll`: drop every record and reset the counter.  Total: it never
fails. -/
def clearAll (_s : Store) : Store := { results := [], nextId := 0 }

/-! ## Operation sequences against the store -/

/-- One request to the actor. -/
inductive StoreOp where
  | add (a : AddRequest)
  | delete (i : ℕ)
  | clear
  | get
deriving DecidableEq

/-- Whether the request is `clearAll`. -/
def StoreOp.isClear : StoreOp → Bool
  | .clear => true
  | _ => false

/-- Whether the request is `addResult`. -/
def StoreOp.isAdd : StoreOp → Bool
  | .add _ => true
  | _ => false

/-- Process one message: the state afterwards, and the id returned when the
message was `addResult`.  A trapped `deleteResult` leaves the state exactly
as it was (the message fails atomically and changes nothing). -/
def applyOp (s : Store) : StoreOp → Store × Option ℕ
  | .add a => ((addResult s a).1, some (addResult s a).2)
  | .delete i =>
    match deleteResult s i with
    | .ok s' => (s', none)
    | .error _ => (s, none)
  | .clear => (clearAll s, none)
  | .get => (s, none)

/-- Process a sequence of messages in order. -/
def runOps (s : Store) : List StoreOp → Store
  | [] => s
  | op :: rest => runOps (applyOp s op).1 rest

/-- The ids handed out by the `addResult` calls of a sequence, in order. -/
def assignedIds (s : Store) : List StoreOp → List ℕ
  | [] => []
  | op :: rest =>
    ((applyOp s op).2).toList ++ assignedIds (applyOp s op).1 rest

/-- A state the actor can be in: reachable from installation by some
sequence of messages. -/
def Reachable (s : Store) : Prop :=
  ∃ ops : List StoreOp, runOps initialStore ops = s

/-- The store's structural invariant: keys strictly sorted, each record's
`id` field equals its key, and every key is below `nextId`. -/
def StoreInv (s : Store) : Prop :=
  (s.results.map Prod.fst).Pairwise (· < ·) ∧
    ∀ p ∈ s.results, p.2.id = p.1 ∧ p.1 < s.nextId

end SRMS

namespace SRMS

/-! ## Lemmas about the map model -/

/-- Inserting a key larger than every present key appends at the end. -/
theorem mapAdd_eq_append (k : ℕ) (v : StudentResult) :
    ∀ l : List (ℕ × StudentResult), (∀ p ∈ l, p.1 < k) →
      mapAdd k v l = l ++ [(k, v)] := by
  intro l
  induction l with
  | nil => intro _; rfl
  | cons hd tl ih =>
    intro h
    obtain ⟨k', v'⟩ := hd
    have hk : k' < k := h (k', v') (by simp)
    simp only [mapAdd]
    rw [if_neg (by omega), if_neg (by omega),
      ih fun p hp => h p (List.mem_cons_of_mem _ hp)]
    simp

/-- Every entry of `mapAdd k v l` is the new pair or an old entry. -/
theorem mem_of_mem_mapAdd {k : ℕ} {v : StudentResult} {p : ℕ × StudentResult} :
    ∀ {l : List (ℕ × StudentResult)}, p ∈ mapAdd k v l → p = (k, v) ∨ p ∈ l := by
  intro l
  induction l with
  | nil => intro h; simp [mapAdd] at h; exact Or.inl h
  | cons hd tl ih =>
    obtain ⟨k', v'⟩ := hd
    intro h
    by_cases h1 : k < k'
    · simp only [mapAdd, if_pos h1, List.mem_cons] at h
      rcases h with h | h | h
      · exact Or.inl h
      · exact Or.inr (by simp [h])
      · exact Or.inr (by simp [h])
    · by_cases h2 : k = k'
      · simp only [mapAdd, if_neg h1, if_pos h2, List.mem_cons] at h
        rcases h with h | h
        · exact Or.inl h
        · exact Or.inr (by simp [h])
      · simp only [mapAdd, if_neg h1, if_neg h2, List.mem_cons] at h
        rcases h with h | h
        · exact Or.inr (by simp [h])
        · rcases ih h with h' | h'
          · exact Or.inl h'
          · exact Or.inr (by simp [h'])

/-- The inserted pair is always present after `mapAdd`. -/
theorem self_mem_mapAdd (k : ℕ) (v : StudentResult) :
    ∀ l : List (ℕ × StudentResult), (k, v) ∈ mapAdd k v l := by
  intro l
  induction l with
  | nil => simp [mapAdd]
  | cons hd tl ih =>
    obtain ⟨k', v'⟩ := hd
    by_cases h1 : k < k'
    · simp [mapAdd, h1]
    · by_cases h2 : k = k'
      · simp [mapAdd, h1, h2]
      · simp only [mapAdd, if_neg h1, if_neg h2, List.mem_cons]
        exact Or.inr ih

/-- `mapRemove` only drops entries. -/
theorem mapRemove_sublist (k : ℕ) :
    ∀ l : List (ℕ × StudentResult), List.Sublist (mapRemove k l) l := by
  intro l
  induction l with
  | nil => simp [mapRemove]
  | cons hd tl ih =>
    obtain ⟨k', v'⟩ := hd
    by_cases h : k = k'
    · simp only [mapRemove, if_pos h]
      exact List.sublist_cons_self _ _
    · simp only [mapRemove, if_neg h]
      exact ih.cons₂ (k', v')

/-- With pairwise-distinct keys, `mapRemove k` keeps exactly the entries
whose key differs from `k`. -/
theorem mem_mapRemove_iff {k : ℕ} {p : ℕ × StudentResult} :
    ∀ {l : List (ℕ × StudentResult)}, (l.map Prod.fst).Pairwise (· ≠ ·) →
      (p ∈ mapRemove k l ↔ p ∈ l ∧ p.1 ≠ k) := by
  intro l
  induction l with
  | nil => intro _; simp [mapRemove]
  | cons hd tl ih =>
    intro hnd
    obtain ⟨k', v'⟩ := hd
    rw [List.map_cons, List.pairwise_cons] at hnd
    obtain ⟨hne, htl⟩ := hnd
    by_cases h : k = k'
    · subst h
      simp only [mapRemove, if_pos rfl]
      constructor
      · intro hp
        refine ⟨List.mem_cons_of_mem _ hp, ?_⟩
        intro hpk
        exact hne p.1 (List.mem_map_of_mem _ hp) hpk.symm
      · rintro ⟨hp, hpk⟩
        rcases List.mem_cons.mp hp with h1 | h1
        · exact absurd (by rw [h1]) hpk
        · exact h1
    · simp only [mapRemove, if_neg h, List.mem_cons, ih htl]
      constructor
      · rintro (h1 | ⟨h1, h2⟩)
        · refine ⟨Or.inl h1, ?_⟩
          rw [h1]
          exact fun hc => h hc.symm
        · exact ⟨Or.inr h1, h2⟩
      · rintro ⟨h1 | h1, h2⟩
        · exact Or.inl h1
        · exact Or.inr ⟨h1, h2⟩

/-- `mapContains` decides the existence of an entry with that key. -/
theorem mapContains_iff (k : ℕ) (l : List (ℕ × StudentResult)) :
    mapContains k l = true ↔ ∃ v, (k, v) ∈ l := by
  unfold mapContains
  rw [List.any_eq_true]
  constructor
  · rintro ⟨⟨k', v⟩, hm, he⟩
    have hk : k' = k := by simpa using he
    exact ⟨v, by rwa [hk] at hm⟩
  · rintro ⟨v, hm⟩
    exact ⟨(k, v), hm, by simp⟩

end SRMS

namespace SRMS

/-! ## The store invariant and its preservation -/

/-- The invariant holds at installation. -/
theorem storeInv_initialStore : StoreInv initialStore :=
  ⟨by simp [initialStore], by simp [initialStore]⟩

/-- Characterisation of a successful `deleteResult`. -/
theorem deleteResult_ok {s s' : Store} {i : ℕ}
    (h : deleteResult s i = Except.ok s') :
    s' = { s with results := mapRemove i s.results } ∧
      mapContains i s.results = true := by
  unfold deleteResult at h
  by_cases hc : mapContains i s.results
  · rw [if_neg (by simp [hc])] at h
    exact ⟨(Except.ok.inj h).symm, hc⟩
  · rw [if_pos (by simp [hc])] at h
    exact absurd h (by simp)

/-- Characterisation of a trapped `deleteResult`. -/
theorem deleteResult_error_iff {s : Store} {i : ℕ} :
    (∃ e, deleteResult s i = Except.error e) ↔
      mapContains i s.results = false := by
  unfold deleteResult
  by_cases hc : mapContains i s.results
  · simp [hc]
  · simp [hc]

/-- `addResult` preserves the invariant. -/
theorem storeInv_addResult {s : Store} (a : AddRequest) (h : StoreInv s) :
    StoreInv (addResult s a).1 := by
  obtain ⟨hsort, hmem⟩ := h
  have hlt : ∀ p ∈ s.results, p.1 < s.nextId := fun p hp => (hmem p hp).2
  unfold addResult
  constructor
  · simp only
    rw [mapAdd_eq_append _ _ _ hlt, List.map_append]
    rw [List.pairwise_append]
    refine ⟨hsort, by simp, ?_⟩
    intro x hx y hy
    simp only [List.map_cons, List.map_nil, List.mem_singleton] at hy
    subst hy
    rcases List.mem_map.mp hx with ⟨p, hp, rfl⟩
    exact hlt p hp
  · intro p hp
    simp only at hp
    rw [mapAdd_eq_append _ _ _ hlt] at hp
    rcases List.mem_append.mp hp with h1 | h1
    · exact ⟨(hmem p h1).1, Nat.lt_succ_of_lt (hmem p h1).2⟩
    · simp only [List.mem_singleton] at h1
      subst h1
      exact ⟨rfl, Nat.lt_succ_self _⟩

/-- Every single message preserves the invariant. -/
theorem storeInv_applyOp {s : Store} (op : StoreOp) (h : StoreInv s) :
    StoreInv (applyOp s op).1 := by
  cases op with
  | add a => exact storeInv_addResult a h
  | delete i =>
    cases hd : deleteResult s i with
    | ok s' =>
      obtain ⟨rfl, _⟩ := deleteResult_ok hd
      simp only [applyOp, hd]
      constructor
      · exact h.1.sublist ((mapRemove_sublist i s.results).map Prod.fst)
      · intro p hp
        exact h.2 p ((mapRemove_sublist i s.results).subset hp)
    | error e =>
      simpa only [applyOp, hd] using h
  | clear => exact ⟨by simp [applyOp, clearAll], by simp [applyOp, clearAll]⟩
  | get => exact h

/-- Whole message sequences preserve the invariant. -/
theorem storeInv_runOps (ops : List StoreOp) :
    ∀ {s : Store}, StoreInv s → StoreInv (runOps s ops) := by
  induction ops with
  | nil => intro s h; exact h
  | cons op rest ih => intro s h; exact ih (storeInv_applyOp op h)

/-- Every reachable state satisfies the invariant. -/
theorem reachable_storeInv {s : Store} (h : Reachable s) : StoreInv s := by
  obtain ⟨ops, rfl⟩ := h
  exact storeInv_runOps ops storeInv_initialStore

/-! ## The sort used by `getResults` -/

/-- Membership through one insertion step. -/
theorem mem_insertById {y r : StudentResult} :
    ∀ {l : List StudentResult}, y ∈ insertById r l ↔ y = r ∨ y ∈ l := by
  intro l
  induction l with
  | nil => simp [insertById]
  | cons x xs ih =>
    simp only [insertById]
    by_cases h : r.id ≤ x.id
    · simp only [if_pos h, List.mem_cons]
    · simp only [if_neg h, List.mem_cons, ih]
      tauto

/-- Sorting does not change the set of records. -/
theorem mem_sortById {y : StudentResult} :
    ∀ {l : List StudentResult}, y ∈ sortById l ↔ y ∈ l := by
  intro l
  induction l with
  | nil => simp [sortById]
  | cons x xs ih => simp [sortById, mem_insertById, ih, List.mem_cons]

/-- Sorting a list already ordered by `id` returns it unchanged. -/
theorem sortById_eq_self :
    ∀ l : List StudentResult, l.Pairwise (fun a b => a.id ≤ b.id) →
      sortById l = l := by
  intro l
  induction l with
  | nil => intro _; rfl
  | cons x xs ih =>
    intro h
    rw [List.pairwise_cons] at h
    obtain ⟨hx, hxs⟩ := h
    rw [sortById, ih hxs]
    cases xs with
    | nil => rfl
    | cons y ys =>
      have hxy : x.id ≤ y.id := hx y (by simp)
      simp [insertById, hxy]

/-- Under the invariant, the stored records are pairwise ordered by `id`. -/
theorem storeInv_values_pairwise {s : Store} (h : StoreInv s) :
    (s.results.map Prod.snd).Pairwise (fun a b => a.id < b.id) := by
  rw [List.pairwise_map]
  have h1 : s.results.Pairwise (fun p q => p.1 < q.1) :=
    List.pairwise_map.mp h.1
  refine h1.imp_of_mem ?_
  intro p q hp hq hlt
  rw [(h.2 p hp).1, (h.2 q hq).1]
  exact hlt

/-- Under the invariant, `getResults` is the map's value sequence. -/
theorem getResults_eq_values {s : Store} (h : StoreInv s) :
    getResults s = s.results.map Prod.snd := by
  unfold getResults
  exact sortById_eq_self _
    ((storeInv_values_pairwise h).imp fun hab => le_of_lt hab)

end SRMS

namespace SRMS

/-! ## Behaviour of message sequences -/

/-- No message other than `clearAll` ever decreases the id counter. -/
theorem nextId_le_applyOp {s : Store} {op : StoreOp}
    (h : op.isClear = false) : s.nextId ≤ (applyOp s op).1.nextId := by
  cases op with
  | add a => simp [applyOp, addResult]
  | delete i =>
    cases hd : deleteResult s i with
    | ok s' =>
      obtain ⟨rfl, _⟩ := deleteResult_ok hd
      simp [applyOp, hd]
    | error e => simp [applyOp, hd]
  | clear => simp [StoreOp.isClear] at h
  | get => simp [applyOp]

/-- Along a `clearAll`-free sequence, every id handed out is at least the
starting counter value. -/
theorem assignedIds_lb (ops : List StoreOp) :
    ∀ {s : Store}, (∀ op ∈ ops, op.isClear = false) →
      ∀ i ∈ assignedIds s ops, s.nextId ≤ i := by
  induction ops with
  | nil => intro s _ i hi; simp [assignedIds] at hi
  | cons op rest ih =>
    intro s hnc i hi
    have hop : op.isClear = false := hnc op (by simp)
    have hrest : ∀ o ∈ rest, o.isClear = false :=
      fun o ho => hnc o (List.mem_cons_of_mem _ ho)
    simp only [assignedIds, List.mem_append] at hi
    rcases hi with hi | hi
    · cases op with
      | add a =>
        simp [applyOp, addResult] at hi
        omega
      | delete j =>
        cases hd : deleteResult s j <;> simp [applyOp, hd] at hi
      | clear => simp [StoreOp.isClear] at hop
      | get => simp [applyOp] at hi
    · have h1 := ih hrest i hi
      have h2 := nextId_le_applyOp (s := s) hop
      omega

/-- Along a `clearAll`-free sequence, the ids handed out by `addResult`
are pairwise strictly increasing (hence pairwise distinct: none reused). -/
theorem assignedIds_pairwise (ops : List StoreOp) :
    ∀ {s : Store}, (∀ op ∈ ops, op.isClear = false) →
      (assignedIds s ops).Pairwise (· < ·) := by
  induction ops with
  | nil => intro s _; simp [assignedIds]
  | cons op rest ih =>
    intro s hnc
    have hop : op.isClear = false := hnc op (by simp)
    have hrest : ∀ o ∈ rest, o.isClear = false :=
      fun o ho => hnc o (List.mem_cons_of_mem _ ho)
    simp only [assignedIds]
    cases op with
    | add a =>
      simp only [applyOp, addResult, Option.toList_some, List.singleton_append]
      rw [List.pairwise_cons]
      constructor
      · intro b hb
        have := assignedIds_lb rest hrest b hb
        simp only [addResult] at this
        omega
      · exact ih hrest
    | delete j =>
      cases hd : deleteResult s j <;>
        simpa [applyOp, hd] using ih hrest
    | clear => simp [StoreOp.isClear] at hop
    | get => simpa [applyOp] using ih hrest

/-- Once an id is below the counter and absent from the map, it stays
absent along any `clearAll`-free continuation. -/
theorem id_stays_absent (ops : List StoreOp) :
    ∀ {s : Store} {i : ℕ}, (∀ op ∈ ops, op.isClear = false) →
      i < s.nextId → (∀ r, (i, r) ∉ s.results) →
      i < (runOps s ops).nextId ∧ ∀ r, (i, r) ∉ (runOps s ops).results := by
  induction ops with
  | nil => intro s i _ h1 h2; exact ⟨h1, h2⟩
  | cons op rest ih =>
    intro s i hnc h1 h2
    have hop : op.isClear = false := hnc op (by simp)
    have hrest : ∀ o ∈ rest, o.isClear = false :=
      fun o ho => hnc o (List.mem_cons_of_mem _ ho)
    rw [runOps]
    refine ih hrest (lt_of_lt_of_le h1 (nextId_le_applyOp hop)) ?_
    intro r hr
    cases op with
    | add a =>
      simp only [applyOp, addResult] at hr
      rcases mem_of_mem_mapAdd hr with he | he
      · have : i = s.nextId := congrArg Prod.fst he
        omega
      · exact h2 r he
    | delete j =>
      cases hd : deleteResult s j with
      | ok s' =>
        obtain ⟨rfl, _⟩ := deleteResult_ok hd
        simp only [applyOp, hd] at hr
        exact h2 r ((mapRemove_sublist j s.results).subset hr)
      | error e =>
        simp only [applyOp, hd] at hr
        exact h2 r hr
    | clear => simp [StoreOp.isClear] at hop
    | get => exact h2 r hr

/-- A sequence of `addResult` messages grows the map by one entry each. -/
theorem runOps_adds_length (ops : List StoreOp) :
    ∀ {s : Store}, StoreInv s → (∀ op ∈ ops, op.isAdd = true) →
      (runOps s ops).results.length = s.results.length + ops.length := by
  induction ops with
  | nil => intro s _ _; simp [runOps]
  | cons op rest ih =>
    intro s hInv hadd
    cases op with
    | add a =>
      rw [runOps, ih (storeInv_applyOp _ hInv)
        (fun o ho => hadd o (List.mem_cons_of_mem _ ho))]
      have hlen : (applyOp s (StoreOp.add a)).1.results.length =
          s.results.length + 1 := by
        simp [applyOp, addResult,
          mapAdd_eq_append _ _ _ (fun p hp => (hInv.2 p hp).2)]
      rw [hlen]
      simp [Nat.add_assoc, Nat.add_comm 1]
    | delete j =>
      have := hadd (StoreOp.delete j) (by simp)
      simp [StoreOp.isAdd] at this
    | clear =>
      have := hadd StoreOp.clear (by simp)
      simp [StoreOp.isAdd] at this
    | get =>
      have := hadd StoreOp.get (by simp)
      simp [StoreOp.isAdd] at this

end SRMS

namespace SRMS

/-! ## Validation characterisation -/

/-- The spec's validation rule for one mark field, stated in the spec's own
terms: the raw text is nonempty and `Number` reads it as an integer lying
in the closed range [0,100]. -/
def parsesIntegerInRange (num : String → JSNum) (raw : String) : Prop :=
  raw ≠ "" ∧ ∃ n : ℤ, num raw = JSNum.num (n : ℚ) ∧ 0 ≤ n ∧ n ≤ 100

/-- `markError` passes a field exactly when the field parses as an integer
in [0,100]. -/
theorem markError_eq_none_iff (num : String → JSNum) (label raw : String) :
    markError num label raw = none ↔ parsesIntegerInRange num raw := by
  unfold markError parsesIntegerInRange
  by_cases hr : raw = ""
  · simp [hr]
  · rw [if_neg hr]
    rcases hq : num raw with _ | q
    · simp [hq]
    · dsimp only
      simp only [JSNum.num.injEq]
      by_cases hden : q.den = 1
      · rw [if_neg (by simp [hden])]
        by_cases hrange : q < 0 ∨ q > 100
        · rw [if_pos hrange]
          constructor
          · intro h
            exact absurd h (by simp)
          · rintro ⟨-, n, hn, h0, h100⟩
            exfalso
            have hq0 : (0 : ℚ) ≤ q := by
              rw [hn]
              exact_mod_cast h0
            have hq100 : q ≤ 100 := by
              rw [hn]
              exact_mod_cast h100
            rcases hrange with h | h <;> linarith
        · rw [if_neg hrange]
          push_neg at hrange
          constructor
          · intro _
            refine ⟨hr, q.num, (Rat.coe_int_num_of_den_eq_one hden).symm, ?_, ?_⟩
            · exact_mod_cast (Rat.coe_int_num_of_den_eq_one hden).symm ▸ hrange.1
            · exact_mod_cast (Rat.coe_int_num_of_den_eq_one hden).symm ▸ hrange.2
          · intro _
            rfl
      · rw [if_pos (by simp [hden])]
        constructor
        · intro h
          exact absurd h (by simp)
        · rintro ⟨-, n, hn, -, -⟩
          exact absurd (hn ▸ Rat.den_intCast n) hden

end SRMS

namespace SRMS

/-! ## Claim theorems: the grade calculator -/

/-- C1: for five integer marks each in [0,100], if any single mark is
strictly less than 35 then `computeGrade` returns "Fail" whatever the
average is: the failing-subject check short-circuits the average
thresholds. -/
theorem computeGrade_fail_short_circuits (average : ℚ) (m1 m2 m3 m4 m5 : ℕ)
    (h1 : m1 ≤ 100) (h2 : m2 ≤ 100) (h3 : m3 ≤ 100) (h4 : m4 ≤ 100)
    (h5 : m5 ≤ 100)
    (hfail : m1 < 35 ∨ m2 < 35 ∨ m3 < 35 ∨ m4 < 35 ∨ m5 < 35) :
    computeGrade average ⟨m1, m2, m3, m4, m5⟩ = "Fail" := by
  have hany : ((Marks.mk (m1 : ℚ) m2 m3 m4 m5).values.any
      fun m => decide (m < 35)) = true := by
    simp only [Marks.values, List.any_cons, List.any_nil, Bool.or_eq_true,
      decide_eq_true_eq]
    rcases hfail with h | h | h | h | h
    · exact Or.inl (by exact_mod_cast h)
    · exact Or.inr (Or.inl (by exact_mod_cast h))
    · exact Or.inr (Or.inr (Or.inl (by exact_mod_cast h)))
    · exact Or.inr (Or.inr (Or.inr (Or.inl (by exact_mod_cast h))))
    · exact Or.inr (Or.inr (Or.inr (Or.inr (Or.inl (by exact_mod_cast h)))))
  simp [computeGrade, hany]

/-- C1 witness: one mark of 34 and four marks of 100 yield "Fail" even at
average 93.6. -/
theorem computeGrade_fail_short_circuits_witness :
    computeGrade ((468 : ℚ) / 5)
      ⟨((34 : ℕ) : ℚ), ((100 : ℕ) : ℚ), ((100 : ℕ) : ℚ), ((100 : ℕ) : ℚ),
        ((100 : ℕ) : ℚ)⟩ = "Fail" :=
  computeGrade_fail_short_circuits ((468 : ℚ) / 5) 34 100 100 100 100
    (by decide) (by decide) (by decide) (by decide) (by decide)
    (by decide)

/-- C2: for five integer marks each in [35,100] and average = total / 5,
`computeGrade` returns "A" when the average is at least 80, "B" on
[60,80), "C" on [40,60), and "Fail" below 40 (so all-40 marks give
average exactly 40 and grade "C", not "Fail"). -/
theorem computeGrade_thresholds (m1 m2 m3 m4 m5 : ℕ) (average : ℚ)
    (g1 : 35 ≤ m1) (g2 : 35 ≤ m2) (g3 : 35 ≤ m3) (g4 : 35 ≤ m4)
    (g5 : 35 ≤ m5)
    (h1 : m1 ≤ 100) (h2 : m2 ≤ 100) (h3 : m3 ≤ 100) (h4 : m4 ≤ 100)
    (h5 : m5 ≤ 100)
    (havg : average = ((m1 : ℚ) + m2 + m3 + m4 + m5) / 5) :
    (80 ≤ average → computeGrade average ⟨m1, m2, m3, m4, m5⟩ = "A") ∧
    (60 ≤ average ∧ average < 80 →
      computeGrade average ⟨m1, m2, m3, m4, m5⟩ = "B") ∧
    (40 ≤ average ∧ average < 60 →
      computeGrade average ⟨m1, m2, m3, m4, m5⟩ = "C") ∧
    (average < 40 → computeGrade average ⟨m1, m2, m3, m4, m5⟩ = "Fail") := by
  have hnone : ((Marks.mk (m1 : ℚ) m2 m3 m4 m5).values.any
      fun m => decide (m < 35)) = false := by
    rw [List.any_eq_false]
    intro x hx
    simp only [Marks.values, List.mem_cons, List.not_mem_nil, or_false] at hx
    simp only [decide_eq_true_eq, not_lt]
    rcases hx with rfl | rfl | rfl | rfl | rfl
    · exact_mod_cast g1
    · exact_mod_cast g2
    · exact_mod_cast g3
    · exact_mod_cast g4
    · exact_mod_cast g5
  refine ⟨?_, ?_, ?_, ?_⟩
  · intro h80
    have hn40 : ¬ average < 40 := by linarith
    simp [computeGrade, hnone, hn40, h80]
  · rintro ⟨h60, h80⟩
    have hn40 : ¬ average < 40 := by linarith
    have hn80 : ¬ 80 ≤ average := not_le.mpr h80
    simp [computeGrade, hnone, hn40, hn80, h60]
  · rintro ⟨h40, h60⟩
    have hn40 : ¬ average < 40 := not_lt.mpr h40
    have hn80 : ¬ 80 ≤ average := by linarith
    have hn60 : ¬ 60 ≤ average := not_le.mpr h60
    simp [computeGrade, hnone, hn40, hn80, hn60]
  · intro h40
    simp [computeGrade, hnone, h40]

/-- C2 witness: all five marks equal to 40 give average exactly 40 and
grade "C" (not "Fail"). -/
theorem computeGrade_thresholds_witness :
    computeGrade 40
      ⟨((40 : ℕ) : ℚ), ((40 : ℕ) : ℚ), ((40 : ℕ) : ℚ), ((40 : ℕ) : ℚ),
        ((40 : ℕ) : ℚ)⟩ = "C" :=
  (computeGrade_thresholds 40 40 40 40 40 40
    (by decide) (by decide) (by decide) (by decide) (by decide)
    (by decide) (by decide) (by decide) (by decide) (by decide)
    (by with_unfolding_all rfl)).2.2.1 ⟨by decide, by decide⟩

/-- C3: whenever `handleCalculate` proceeds (validation passed), the stored
total is the literal sum of the five marks and the stored average is
exactly total / 5, with no rounding. -/
theorem handleCalculate_total_average (num : String → JSNum)
    (v : FormValues) (r : CalculatedResult)
    (h : handleCalculate num v = some r) :
    r.total = r.marks.maths + r.marks.science + r.marks.english +
      r.marks.tamil + r.marks.computerScience ∧
    r.average = r.total / 5 := by
  unfold handleCalculate at h
  by_cases he : (validateForm num v).hasErrors
  · simp [he] at h
  · simp only [he, Bool.false_eq_true, if_false] at h
    obtain rfl := Option.some.inj h
    constructor
    · simp [Marks.values]
    · rfl

/-- C3 witness: a fully valid form with all marks parsing to 50 stores
total 250 and average 250 / 5 = 50. -/
theorem handleCalculate_total_average_witness :
    ((250 : ℚ) = 50 + 50 + 50 + 50 + 50) ∧ ((50 : ℚ) = 250 / 5) := by
  have h := handleCalculate_total_average (fun _ => JSNum.num 50)
    ⟨"Asha", "1", "50", "50", "50", "50", "50"⟩
    ⟨250, 50, "C", ⟨50, 50, 50, 50, 50⟩⟩
    (by with_unfolding_all rfl)
  exact h

end SRMS

namespace SRMS

/-- C8: `validateForm` flags the student name and roll number exactly when
they are empty after trimming whitespace, flags each mark field exactly
when it does not parse as an integer in [0,100], and when any field is
flagged `handleCalculate` rejects the form and the grade calculation does
not proceed. -/
theorem validateForm_field_by_field (num : String → JSNum) (v : FormValues) :
    ((validateForm num v).studentName.isSome = true ↔
      jsTrim v.studentName = "") ∧
    ((validateForm num v).rollNumber.isSome = true ↔
      jsTrim v.rollNumber = "") ∧
    ((validateForm num v).maths.isSome = true ↔
      ¬ parsesIntegerInRange num v.maths) ∧
    ((validateForm num v).science.isSome = true ↔
      ¬ parsesIntegerInRange num v.science) ∧
    ((validateForm num v).english.isSome = true ↔
      ¬ parsesIntegerInRange num v.english) ∧
    ((validateForm num v).tamil.isSome = true ↔
      ¬ parsesIntegerInRange num v.tamil) ∧
    ((validateForm num v).computerScience.isSome = true ↔
      ¬ parsesIntegerInRange num v.computerScience) ∧
    ((validateForm num v).hasErrors = true → handleCalculate num v = none) := by
  have hmark : ∀ label raw, (markError num label raw).isSome = true ↔
      ¬ parsesIntegerInRange num raw := by
    intro label raw
    rw [← markError_eq_none_iff num label raw]
    cases markError num label raw <;> simp
  refine ⟨?_, ?_, hmark _ _, hmark _ _, hmark _ _, hmark _ _, hmark _ _, ?_⟩
  · unfold validateForm
    by_cases h : jsTrim v.studentName = "" <;> simp [h]
  · unfold validateForm
    by_cases h : jsTrim v.rollNumber = "" <;> simp [h]
  · intro h
    unfold handleCalculate
    simp [h]

end SRMS

namespace SRMS

/-! ## Claim theorems: the result store -/

/-- A sample creation request used in concrete runs. -/
def sampleAdd : AddRequest :=
  { rollNumber := "1", studentName := "Asha", maths := 40, science := 40
    english := 40, tamil := 40, computerScience := 40, total := 200
    average := 40, grade := "C", timestamp := 0 }

/-- A second sample creation request used in concrete runs. -/
def sampleAdd2 : AddRequest :=
  { rollNumber := "2", studentName := "Ravi", maths := 90, science := 90
    english := 90, tamil := 90, computerScience := 90, total := 450
    average := 90, grade := "A", timestamp := 1 }

/-- The state after two creations, used as a concrete reachable state. -/
def twoRecordStore : Store :=
  runOps initialStore [StoreOp.add sampleAdd, StoreOp.add sampleAdd2]

/-- C4 counterexample: over the sequence add, clearAll, add the two
`addResult` calls both return id 0 — ids are reused and not strictly
increasing, because `clearAll` resets the counter. -/
theorem addResult_ids_reused_after_clearAll :
    assignedIds initialStore
        [StoreOp.add sampleAdd, StoreOp.clear, StoreOp.add sampleAdd] =
      [0, 0] ∧
    ¬ (assignedIds initialStore
        [StoreOp.add sampleAdd, StoreOp.clear, StoreOp.add sampleAdd]).Pairwise
        (· < ·) := by
  constructor
  · rfl
  · intro h
    rw [show assignedIds initialStore
        [StoreOp.add sampleAdd, StoreOp.clear, StoreOp.add sampleAdd] =
        [0, 0] from rfl] at h
    have h0 := (List.pairwise_cons.mp h).1 0 (by simp)
    exact absurd h0 (by simp)

/-- C4 (amended): along every sequence of store operations that contains
no `clearAll`, the ids assigned by successive `addResult` calls are
pairwise strictly increasing, so an id is never reused, even after
`deleteResult` removes the record bearing it. -/
theorem addResult_ids_strictly_increasing (ops : List StoreOp)
    (h : ∀ op ∈ ops, op.isClear = false) :
    (assignedIds initialStore ops).Pairwise (· < ·) :=
  assignedIds_pairwise ops h

/-- C4 witness: add, delete the record again, add: the assigned ids 0 and 1
are strictly increasing and the deleted id 0 is not handed out again. -/
theorem addResult_ids_strictly_increasing_witness :
    (assignedIds initialStore
      [StoreOp.add sampleAdd, StoreOp.delete 0,
        StoreOp.add sampleAdd2]).Pairwise (· < ·) :=
  addResult_ids_strictly_increasing
    [StoreOp.add sampleAdd, StoreOp.delete 0, StoreOp.add sampleAdd2]
    (by decide)

/-- C5: in every reachable store state, `getResults` returns exactly the
records currently present (a record is returned iff it is stored under its
own id, and the count matches), in strictly ascending id order; after N
`addResult` calls and no other mutations it returns exactly N records. -/
theorem getResults_exactly_current (s : Store) (hs : Reachable s) :
    (∀ r : StudentResult, r ∈ getResults s ↔ (r.id, r) ∈ s.results) ∧
    (getResults s).length = s.results.length ∧
    ((getResults s).map StudentResult.id).Pairwise (· < ·) ∧
    (∀ ops : List StoreOp, (∀ op ∈ ops, op.isAdd = true) →
      (getResults (runOps initialStore ops)).length = ops.length) := by
  have hInv := reachable_storeInv hs
  refine ⟨?_, ?_, ?_, ?_⟩
  · intro r
    rw [getResults_eq_values hInv]
    constructor
    · intro hr
      rcases List.mem_map.mp hr with ⟨⟨k, r'⟩, hp, he⟩
      cases he
      have hk := (hInv.2 (k, r') hp).1
      simp only at hk
      rwa [hk]
    · intro hr
      exact List.mem_map.mpr ⟨(r.id, r), hr, rfl⟩
  · rw [getResults_eq_values hInv, List.length_map]
  · rw [getResults_eq_values hInv, List.pairwise_map]
    exact storeInv_values_pairwise hInv
  · intro ops hadd
    rw [getResults_eq_values (storeInv_runOps ops storeInv_initialStore),
      List.length_map, runOps_adds_length ops storeInv_initialStore hadd]
    simp [initialStore]

/-- C5 witness: after two creations the two records are listed, in
ascending id order. -/
theorem getResults_exactly_current_witness :
    (∀ r : StudentResult,
      r ∈ getResults twoRecordStore ↔ (r.id, r) ∈ twoRecordStore.results) ∧
    (getResults twoRecordStore).length = twoRecordStore.results.length ∧
    ((getResults twoRecordStore).map StudentResult.id).Pairwise (· < ·) ∧
    (∀ ops : List StoreOp, (∀ op ∈ ops, op.isAdd = true) →
      (getResults (runOps initialStore ops)).length = ops.length) :=
  getResults_exactly_current twoRecordStore
    ⟨[StoreOp.add sampleAdd, StoreOp.add sampleAdd2], rfl⟩

/-- C6 counterexample: "a subsequent `getResults` never includes that id
again" fails as stated.  From the one-record state (id 0), `deleteResult 0`
succeeds and yields the empty store with counter 1; but the continuation
clearAll, addResult resets the counter and reissues id 0, so the very next
`getResults` lists id 0 again. -/
theorem deleteResult_id_reappears_after_clearAll :
    deleteResult (runOps initialStore [StoreOp.add sampleAdd]) 0 =
      Except.ok { results := [], nextId := 1 } ∧
    (getResults (runOps { results := ([] : List (ℕ × StudentResult)), nextId := 1 }
      [StoreOp.clear, StoreOp.add sampleAdd2])).map StudentResult.id = [0] := by
  constructor
  · rfl
  · rfl

/-- C6 (amended): in every reachable state, `deleteResult i` fails (with
the "not found" trap) iff no record with id `i` exists; a failing delete
leaves the state exactly as it was; a successful delete removes exactly
the record with id `i`, and no later `getResults` — after any
continuation that does not reset the store with `clearAll` — ever
includes id `i` again (after a `clearAll` the reset counter can reissue
the id, as the counterexample shows). -/
theorem deleteResult_not_found_or_removes (s : Store) (i : ℕ)
    (hs : Reachable s) :
    ((∃ e, deleteResult s i = Except.error e) ↔
      ∀ r : StudentResult, (i, r) ∉ s.results) ∧
    ((∀ r : StudentResult, (i, r) ∉ s.results) →
      applyOp s (StoreOp.delete i) = (s, none)) ∧
    (∀ s' : Store, deleteResult s i = Except.ok s' →
      (∀ p : ℕ × StudentResult, p ∈ s'.results ↔ p ∈ s.results ∧ p.1 ≠ i) ∧
      (∀ ops : List StoreOp, (∀ op ∈ ops, op.isClear = false) →
        ∀ r ∈ getResults (runOps s' ops), r.id ≠ i)) := by
  have hInv := reachable_storeInv hs
  have habsent : (∀ r : StudentResult, (i, r) ∉ s.results) ↔
      mapContains i s.results = false := by
    constructor
    · intro h
      cases hc : mapContains i s.results with
      | false => rfl
      | true =>
        rcases (mapContains_iff i s.results).mp hc with ⟨v, hv⟩
        exact absurd hv (h v)
    · intro h r hr
      have hc : mapContains i s.results = true :=
        (mapContains_iff i s.results).mpr ⟨r, hr⟩
      rw [h] at hc
      exact Bool.false_ne_true hc
  refine ⟨?_, ?_, ?_⟩
  · rw [deleteResult_error_iff, habsent]
  · intro h
    have he : deleteResult s i = Except.error "Result with id does not exist" := by
      unfold deleteResult
      rw [if_pos (by simp [habsent.mp h])]
    simp [applyOp, he]
  · intro s' hok
    obtain ⟨rfl, hc⟩ := deleteResult_ok hok
    have hmem : ∀ p : ℕ × StudentResult,
        p ∈ mapRemove i s.results ↔ p ∈ s.results ∧ p.1 ≠ i := by
      intro p
      exact mem_mapRemove_iff (hInv.1.imp fun hab => Nat.ne_of_lt hab)
    refine ⟨hmem, ?_⟩
    intro ops hnc r hr hri
    have hlt : i < s.nextId := by
      rcases (mapContains_iff i s.results).mp hc with ⟨v, hv⟩
      exact (hInv.2 (i, v) hv).2
    have hInv' : StoreInv { s with results := mapRemove i s.results } :=
      ⟨hInv.1.sublist ((mapRemove_sublist i s.results).map Prod.fst),
        fun p hp => hInv.2 p ((mapRemove_sublist i s.results).subset hp)⟩
    have habs := id_stays_absent ops (s := { s with results := mapRemove i s.results })
      (i := i) hnc hlt
      (fun r' hr' => ((hmem (i, r')).mp hr').2 rfl)
    rw [getResults_eq_values (storeInv_runOps ops hInv')] at hr
    rcases List.mem_map.mp hr with ⟨⟨k, r'⟩, hp, he⟩
    cases he
    have hk := ((storeInv_runOps ops hInv').2 (k, r') hp).1
    simp only at hk
    exact (habs.2 r') (by rwa [← hk, hri] at hp)

/-- C6 witness: in the two-record state, deleting absent id 7 fails and
changes nothing, while deleting id 0 succeeds and removes exactly that
record. -/
theorem deleteResult_not_found_or_removes_witness :
    ((∃ e, deleteResult twoRecordStore 7 = Except.error e) ↔
      ∀ r : StudentResult, (7, r) ∉ twoRecordStore.results) ∧
    ((∀ r : StudentResult, (7, r) ∉ twoRecordStore.results) →
      applyOp twoRecordStore (StoreOp.delete 7) = (twoRecordStore, none)) ∧
    (∀ s' : Store, deleteResult twoRecordStore 7 = Except.ok s' →
      (∀ p : ℕ × StudentResult,
        p ∈ s'.results ↔ p ∈ twoRecordStore.results ∧ p.1 ≠ 7) ∧
      (∀ ops : List StoreOp, (∀ op ∈ ops, op.isClear = false) →
        ∀ r ∈ getResults (runOps s' ops), r.id ≠ 7)) :=
  deleteResult_not_found_or_removes twoRecordStore 7
    ⟨[StoreOp.add sampleAdd, StoreOp.add sampleAdd2], rfl⟩

/-- C7: `clearAll` always succeeds (it is a total function), removes every
record and resets the id counter to zero, so the first `addResult` after
it assigns id 0. -/
theorem clearAll_resets (s : Store) (a : AddRequest) :
    (clearAll s).results = [] ∧ (clearAll s).nextId = 0 ∧
    (addResult (clearAll s) a).2 = 0 :=
  ⟨rfl, rfl, rfl⟩

/-- C9: `addResult` never fails (it is a total function) and stores the
caller-supplied total, average and grade verbatim, without checking them
against the marks: concretely, a request whose `total` field is 999 while
its marks sum to 50 is accepted and stored unchanged. -/
theorem addResult_stores_verbatim (s : Store) (a : AddRequest) :
    (addResult s a).2 = s.nextId ∧
    (s.nextId,
      { id := s.nextId, rollNumber := a.rollNumber
        studentName := a.studentName, maths := a.maths, science := a.science
        english := a.english, tamil := a.tamil
        computerScience := a.computerScience, total := a.total
        average := a.average, grade := a.grade
        timestamp := a.timestamp }) ∈ (addResult s a).1.results ∧
    (addResult initialStore
        ⟨"7", "Maya", 10, 10, 10, 10, 10, 999, 3, "A", 5⟩).1.results =
      [(0, ⟨0, "7", "Maya", 10, 10, 10, 10, 10, 999, 3, "A", 5⟩)] ∧
    10 + 10 + 10 + 10 + 10 ≠ 999 :=
  ⟨rfl, self_mem_mapAdd s.nextId _ s.results, rfl, by decide⟩

/-- C10: in every reachable store state, every key in the results map is
strictly below `nextId`, each stored record's `id` field equals its key,
and the records returned by `getResults` carry pairwise distinct ids. -/
theorem store_id_invariants (s : Store) (hs : Reachable s) :
    (∀ p ∈ s.results, p.1 < s.nextId ∧ p.2.id = p.1) ∧
    ((getResults s).map StudentResult.id).Pairwise (· ≠ ·) := by
  have hInv := reachable_storeInv hs
  refine ⟨fun p hp => ⟨(hInv.2 p hp).2, (hInv.2 p hp).1⟩, ?_⟩
  rw [getResults_eq_values hInv, List.pairwise_map]
  exact (storeInv_values_pairwise hInv).imp fun hab => Nat.ne_of_lt hab

/-- C10 witness: the invariant holds in the concrete state reached by two
creations followed by one deletion. -/
theorem store_id_invariants_witness :
    (∀ p ∈ (runOps initialStore [StoreOp.add sampleAdd,
        StoreOp.add sampleAdd2, StoreOp.delete 0]).results,
      p.1 < (runOps initialStore [StoreOp.add sampleAdd,
        StoreOp.add sampleAdd2, StoreOp.delete 0]).nextId ∧ p.2.id = p.1) ∧
    ((getResults (runOps initialStore [StoreOp.add sampleAdd,
        StoreOp.add sampleAdd2, StoreOp.delete 0])).map
      StudentResult.id).Pairwise (· ≠ ·) :=
  store_id_invariants
    (runOps initialStore [StoreOp.add sampleAdd, StoreOp.add sampleAdd2,
      StoreOp.delete 0])
    ⟨[StoreOp.add sampleAdd, StoreOp.add sampleAdd2, StoreOp.delete 0], rfl⟩

end SRMS
